import Mathlib

/-! Verification of the core routines of `backupberhasil.py`, a script that
builds a dialogue-style video: subtitle word wrapping with a font-shrink loop,
aspect-preserving image scaling, per-frame compositing with a sinusoidal shake
offset, and the per-line clip sequencer.  Python strings are modelled as lists
of characters, rasters as functions from coordinates to RGBA values, fallible
operations as `Except`/`Option`, and the float arithmetic of the shake offset
over `ℝ` (exact reals in place of IEEE doubles). -/

namespace AutomatePodcast

/-- Python strings, modelled as lists of characters. -/
abbrev PyStr := List Char

/-- Helper for `splitWords`: extend the first word of an already-split suffix
with one more (non-whitespace) leading character. -/
def glue (c : Char) : List PyStr → List PyStr
  | [] => [[c]]
  | w :: ws => (c :: w) :: ws

/-- Python `text.split()` (line 107 of `backupberhasil.py`): the maximal runs
of non-whitespace characters, in order; empty pieces are discarded. -/
def splitWords : PyStr → List PyStr
  | [] => []
  | c :: cs =>
    if c.isWhitespace then splitWords cs
    else
      match cs with
      | [] => [[c]]
      | d :: t =>
        if d.isWhitespace then [c] :: splitWords (d :: t)
        else glue c (splitWords (d :: t))

/-- Python `' '.join(words)` (lines 112, 118, 122). -/
def joinSpace : List PyStr → PyStr
  | [] => []
  | [w] => w
  | w :: ws => w ++ ' ' :: joinSpace ws

/-- A word as produced by `splitWords`: non-empty, no whitespace characters. -/
def cleanWord (w : PyStr) : Prop :=
  w ≠ [] ∧ ∀ ch ∈ w, ch.isWhitespace = false

/-- One step of the greedy wrap loop body, lines 111-119: try to add `word` to
the current line; if the rendered width of the test line exceeds `maxWidth`,
close the current line (even when it is empty) and start a new one with
`word`.  `measure` models `draw.textbbox(..., font=font)[2] - [0]`, the
rendered pixel width of a string under the current font. -/
def wrapStep (measure : PyStr → Int) (maxWidth : Int)
    (st : List PyStr × List PyStr) (word : PyStr) : List PyStr × List PyStr :=
  let test := joinSpace (st.2 ++ [word])
  if measure test ≤ maxWidth then (st.1, st.2 ++ [word])
  else (st.1 ++ [joinSpace st.2], [word])

/-- `wrap_text(text, font, max_width)`, lines 106-124: greedy word wrap; the
trailing current line is appended when non-empty (lines 121-122). -/
def wrap_text (measure : PyStr → Int) (maxWidth : Int) (text : PyStr) :
    List PyStr :=
  let r := (splitWords text).foldl (wrapStep measure maxWidth) ([], [])
  if r.2 = [] then r.1 else r.1 ++ [joinSpace r.2]

/-- The font-shrink loop of `create_subtitle_mask`, lines 130-137.  `loadTtf`
models `ImageFont.truetype(path, size)`, which yields the width metric of the
font at that size or raises (`.error`) when the font file cannot be loaded;
the call on line 131 is not guarded by any try/except.  State carried through
the loop: the current `current_fontsize`, the size the current `font` variable
was loaded at, the last `wrapped_lines`, and a count of wrap iterations.  The
first `Nat` argument is fuel, set by the caller to `(fontsize - 19) / 2`, the
exact maximal number of remaining iterations, which makes the recursion
structural; when the fuel is 0 the guard `current_fontsize > 20` is already
false. -/
def shrinkGo (loadTtf : Nat → Except Unit (PyStr → Int)) (text : PyStr)
    (maxWidth : Int) :
    Nat → Nat → Nat → List PyStr → Nat → Except Unit (Nat × List PyStr × Nat)
  | 0, _, usedSize, lines, iters => .ok (usedSize, lines, iters)
  | fuel + 1, fsize, usedSize, lines, iters =>
    if 20 < fsize then
      match loadTtf fsize with
      | .error e => .error e
      | .ok font =>
        let wrapped := wrap_text font maxWidth text
        if wrapped.length ≤ 3 then .ok (fsize, wrapped, iters + 1)
        else shrinkGo loadTtf text maxWidth fuel (fsize - 2) fsize wrapped
          (iters + 1)
    else .ok (usedSize, lines, iters)

/-- The layout phase of `create_subtitle_mask(w, h, text, fontsize)`, lines
98-139: `max_subtitle_width = w - 100` (line 126) and the shrink loop.  The
result is the font size the accepted wrap was computed at, the accepted
wrapped lines, and the number of wrap iterations; the drawing phase (lines
139-157) consumes exactly these.  The initial guarded font load (lines
101-104, with its fallback to the default font) only matters when the loop
body never runs, in which case the wrapped line list is empty and the
requested size is reported. -/
def create_subtitle_mask_layout (loadTtf : Nat → Except Unit (PyStr → Int))
    (w : Nat) (text : PyStr) (fontsize : Nat) :
    Except Unit (Nat × List PyStr × Nat) :=
  shrinkGo loadTtf text ((w : Int) - 100) ((fontsize - 19) / 2) fontsize
    fontsize [] 0

/-- `ImageProcessor.scale_image`, lines 62-81.  `decoded` is the outcome of
`Image.open(image_path)` and reading `img.size`: `.error` when opening or
decoding raises.  In exact arithmetic `int(target_height * (width / height))`
is the floor `(target_height * width) / height`; a zero height raises
`ZeroDivisionError`, caught by the same handler (lines 79-81) that logs and
returns `None`. -/
def scale_image (decoded : Except Unit (Nat × Nat)) (targetHeight : Nat) :
    Option (Nat × Nat) :=
  match decoded with
  | .error _ => none
  | .ok (w0, h0) =>
    if h0 = 0 then none
    else some ((targetHeight * w0) / h0, targetHeight)

/-- Python `int()` applied to a real value: truncation toward zero. -/
noncomputable def floatToInt (x : ℝ) : ℤ := if 0 ≤ x then ⌊x⌋ else ⌈x⌉

/-- The shake offset of the speaking sprite, lines 232-233:
`offset = int(shake_amount * np.sin(t * 10))` with `shake_amount = 5`. -/
noncomputable def shakeOffset (t : ℝ) : ℤ := floatToInt (5 * Real.sin (t * 10))

/-- An RGBA pixel. -/
structure Pix where
  r : Nat
  g : Nat
  b : Nat
  a : Nat

/-- An in-memory raster: width, height and a pixel map. -/
structure Img where
  wd : Nat
  ht : Nat
  pix : Nat → Nat → Pix

/-- PIL `base.paste(spr, (px, py), spr)`: paste the sprite at the given
offset, using the sprite's own alpha band as the mask (alpha-weighted blend
inside the sprite rectangle, base left intact elsewhere). -/
def pasteImg (base spr : Img) (px py : Int) : Img :=
  { base with pix := fun x y =>
      let sx : Int := (x : Int) - px
      let sy : Int := (y : Int) - py
      if 0 ≤ sx ∧ sx < (spr.wd : Int) ∧ 0 ≤ sy ∧ sy < (spr.ht : Int) then
        let s := spr.pix sx.toNat sy.toNat
        let d := base.pix x y
        { r := (s.r * s.a + d.r * (255 - s.a)) / 255,
          g := (s.g * s.a + d.g * (255 - s.a)) / 255,
          b := (s.b * s.a + d.b * (255 - s.a)) / 255,
          a := d.a }
      else base.pix x y }

/-- Lines 244-246: `frame_array[alpha_mask] = subtitle[alpha_mask][:, :3]` —
wherever the subtitle mask has positive alpha, replace the frame's RGB with
the mask's RGB (hard cutout, no blending). -/
def overlaySubtitle (frame sub : Img) : Img :=
  { frame with pix := fun x y =>
      let s := sub.pix x y
      if 0 < s.a then { r := s.r, g := s.g, b := s.b, a := (frame.pix x y).a }
      else frame.pix x y }

/-- The fields of a `DialogClip` (lines 197-217). -/
structure DialogClip where
  background : Img
  char1 : Img
  char2 : Img
  text : PyStr
  speaking : Nat
  duration : ℝ

/-- The body of `DialogClip.__call__(t)`, lines 219-248: start from a copy of
the background, paste both sprites at the bottom margins (`margin = 10`,
`char_y = 1080 - 400`), the speaking one displaced by the shake offset, then
overlay the freshly generated subtitle mask.  `mkSubtitle` abstracts the pure
rendering collaborator `create_subtitle_mask(w, h, text)` of line 242. -/
noncomputable def dialogFrame (mkSubtitle : Nat → Nat → PyStr → Img)
    (c : DialogClip) (t : ℝ) : Img :=
  let frame := c.background
  let char1X : Int := 10
  let char2X : Int := 1920 - (c.char2.wd : Int) - 10
  let charY : Int := 1080 - 400
  let offset := shakeOffset t
  let pasted :=
    if c.speaking = 1 then
      pasteImg (pasteImg frame c.char1 (char1X + offset) charY) c.char2
        char2X charY
    else
      pasteImg (pasteImg frame c.char1 char1X charY) c.char2
        (char2X + offset) charY
  overlaySubtitle pasted (mkSubtitle 1920 1080 c.text)

/-- One sampled call of the render function with explicit state passing: the
returned `DialogClip` is the state of the clip object after the call.  Line
220 copies the background (`frame = self.background.copy()`), so every paste
writes to the copy and each stored field is returned as it was. -/
noncomputable def dialogCall (mkSubtitle : Nat → Nat → PyStr → Img)
    (c : DialogClip) (t : ℝ) : Img × DialogClip :=
  (dialogFrame mkSubtitle c t, { c with background := c.background })

/-- Any sequence of prior render calls, threading the clip state through. -/
noncomputable def runCalls (mkSubtitle : Nat → Nat → PyStr → Img)
    (c : DialogClip) (ts : List ℝ) : DialogClip :=
  ts.foldl (fun s u => (dialogCall mkSubtitle s u).2) c

/-- `DialogClip.__call__` when the sprites come straight from `scale_image`,
which may have returned `None`: lines 224-225 read `self.char1.size[0]` and
`self.char2.size[0]` with no null-check, so an absent sprite raises an
uncaught `AttributeError` (modelled as `.error`). -/
noncomputable def dialogCallChecked (mkSubtitle : Nat → Nat → PyStr → Img)
    (bg : Img) (spr1 spr2 : Option Img) (text : PyStr) (speaking : Nat)
    (d t : ℝ) : Except Unit Img :=
  match spr1, spr2 with
  | some c1, some c2 =>
      .ok (dialogFrame mkSubtitle ⟨bg, c1, c2, text, speaking, d⟩ t)
  | _, _ => .error ()

/-- Line 280: `is_host = i % 4 in [0, 1]`. -/
def is_host (i : Nat) : Bool := ([0, 1] : List Nat).contains (i % 4)

/-- Line 299: `speaking_char = 1 if i % 4 in [0, 1] else 2`. -/
def speaking_char (i : Nat) : Nat :=
  if ([0, 1] : List Nat).contains (i % 4) then 1 else 2

/-- Line 298: each clip lasts the synthesized audio duration plus a fixed
0.5-second pad. -/
def clipDurations (ds : List ℚ) : List ℚ := ds.map (fun d => d + 1 / 2)

/-- Modelled from the spec: `concatenate_videoclips` (line 307) is the
external moviepy collaborator, absent from the repository; per the spec it
places the clips sequentially in order with no gap or overlap, each clip's
audio starting at the clip's start.  The timeline lists `(start, duration)`
pairs, accumulating the start time. -/
def concatTimeline : ℚ → List ℚ → List (ℚ × ℚ)
  | _, [] => []
  | s, d :: rest => (s, d) :: concatTimeline (s + d) rest

/-- The concatenated timeline of the sequencer, starting at time 0. -/
def timeline (ds : List ℚ) : List (ℚ × ℚ) := concatTimeline 0 ds

/-- A width metric that makes every line fit (used as a concrete witness). -/
def zeroTtf : Nat → PyStr → Int := fun _ _ => 0

/-- A width metric that makes no line fit a 1820-pixel budget at any size. -/
def tenKTtf : Nat → PyStr → Int := fun _ _ => 10000

/-- The five-word test text "a b c d e". -/
def cexText : PyStr := ['a', ' ', 'b', ' ', 'c', ' ', 'd', ' ', 'e']

/-- The two-word test text "ab cd". -/
def cexText2 : PyStr := ['a', 'b', ' ', 'c', 'd']

/-- A width metric proportional to string length (one pixel per character). -/
def lenMeasure : PyStr → Int := fun s => (s.length : Int)

/- ## Lemmas about `splitWords` -/

theorem splitWords_white {c : Char} (h : c.isWhitespace = true) (cs : PyStr) :
    splitWords (c :: cs) = splitWords cs := by
  rw [splitWords.eq_def]
  simp [h]

theorem splitWords_single {c : Char} (h : c.isWhitespace = false) :
    splitWords [c] = [[c]] := by
  rw [splitWords.eq_def]
  simp [h]

theorem splitWords_cons_white {c d : Char} (hc : c.isWhitespace = false)
    (hd : d.isWhitespace = true) (t : PyStr) :
    splitWords (c :: d :: t) = [c] :: splitWords (d :: t) := by
  rw [splitWords.eq_def]
  simp [hc, hd]

theorem splitWords_cons_cons {c d : Char} (hc : c.isWhitespace = false)
    (hd : d.isWhitespace = false) (t : PyStr) :
    splitWords (c :: d :: t) = glue c (splitWords (d :: t)) := by
  rw [splitWords.eq_def]
  simp [hc, hd]

theorem splitWords_cons_ne {c : Char} (hc : c.isWhitespace = false)
    (cs : PyStr) : ∃ w ws, splitWords (c :: cs) = w :: ws := by
  cases cs with
  | nil => exact ⟨[c], [], splitWords_single hc⟩
  | cons d t =>
    cases hd : d.isWhitespace with
    | true => exact ⟨[c], splitWords (d :: t), splitWords_cons_white hc hd t⟩
    | false =>
      rcases h : splitWords (d :: t) with _ | ⟨w, ws⟩
      · exact ⟨[c], [], by rw [splitWords_cons_cons hc hd, h]; rfl⟩
      · exact ⟨c :: w, ws, by rw [splitWords_cons_cons hc hd, h]; rfl⟩

theorem splitWords_append {c : Char} (hc : c.isWhitespace = true) :
    ∀ x y : PyStr, splitWords (x ++ c :: y) = splitWords x ++ splitWords y := by
  intro x
  induction x with
  | nil =>
    intro y
    rw [List.nil_append, splitWords_white hc]
    rfl
  | cons a x ih =>
    intro y
    cases ha : a.isWhitespace with
    | true =>
      rw [List.cons_append, splitWords_white ha, splitWords_white ha, ih]
    | false =>
      cases x with
      | nil =>
        show splitWords (a :: c :: y) = splitWords [a] ++ splitWords y
        rw [splitWords_cons_white ha hc, splitWords_white hc,
          splitWords_single ha]
        rfl
      | cons b x' =>
        cases hb : b.isWhitespace with
        | true =>
          have h1 : a :: (b :: x') ++ c :: y = a :: b :: (x' ++ c :: y) := by
            simp
          rw [h1, splitWords_cons_white ha hb, splitWords_cons_white ha hb]
          have h2 : b :: (x' ++ c :: y) = (b :: x') ++ c :: y := by simp
          rw [h2, ih]
          rfl
        | false =>
          have h1 : a :: (b :: x') ++ c :: y = a :: b :: (x' ++ c :: y) := by
            simp
          rw [h1, splitWords_cons_cons ha hb, splitWords_cons_cons ha hb]
          have h2 : b :: (x' ++ c :: y) = (b :: x') ++ c :: y := by simp
          rw [h2, ih]
          rcases splitWords_cons_ne hb x' with ⟨w, ws, hws⟩
          rw [hws]
          rfl

theorem splitWords_clean : ∀ l : PyStr, ∀ w ∈ splitWords l, cleanWord w := by
  intro l
  induction l with
  | nil => intro w hw; rw [splitWords.eq_def] at hw; simp at hw
  | cons c cs ih =>
    cases hc : c.isWhitespace with
    | true => rw [splitWords_white hc]; exact ih
    | false =>
      cases cs with
      | nil =>
        rw [splitWords_single hc]
        intro w hw
        rw [List.mem_singleton] at hw
        subst hw
        exact ⟨by simp, by simp [hc]⟩
      | cons d t =>
        cases hd : d.isWhitespace with
        | true =>
          rw [splitWords_cons_white hc hd]
          intro w hw
          rcases List.mem_cons.mp hw with h | h
          · subst h; exact ⟨by simp, by simp [hc]⟩
          · exact ih w h
        | false =>
          rw [splitWords_cons_cons hc hd]
          rcases hsp : splitWords (d :: t) with _ | ⟨w0, ws0⟩
          · intro w hw
            simp only [glue, List.mem_singleton] at hw
            subst hw
            exact ⟨by simp, by simp [hc]⟩
          · intro w hw
            simp only [glue, List.mem_cons] at hw
            rcases hw with h | h
            · subst h
              have hcw := ih w0 (by rw [hsp]; exact List.mem_cons_self _ _)
              refine ⟨by simp, ?_⟩
              intro ch hch
              rcases List.mem_cons.mp hch with h' | h'
              · subst h'; exact hc
              · exact hcw.2 ch h'
            · exact ih w (by rw [hsp]; exact List.mem_cons_of_mem _ h)

theorem splitWords_of_clean : ∀ w : PyStr, cleanWord w → splitWords w = [w] := by
  intro w
  induction w with
  | nil => intro h; exact absurd rfl h.1
  | cons c cs ih =>
    intro h
    have hc : c.isWhitespace = false := h.2 c (List.mem_cons_self _ _)
    cases cs with
    | nil => exact splitWords_single hc
    | cons d t =>
      have hd : d.isWhitespace = false := h.2 d (by simp)
      have hclean : cleanWord (d :: t) :=
        ⟨by simp, fun ch hch => h.2 ch (List.mem_cons_of_mem _ hch)⟩
      rw [splitWords_cons_cons hc hd, ih hclean]
      rfl

theorem splitWords_joinSpace : ∀ ls : List PyStr,
    splitWords (joinSpace ls) = (ls.map splitWords).flatten := by
  intro ls
  induction ls with
  | nil => rfl
  | cons w ls ih =>
    cases ls with
    | nil => simp [joinSpace]
    | cons w' ls' =>
      have h1 : joinSpace (w :: w' :: ls') = w ++ ' ' :: joinSpace (w' :: ls') :=
        rfl
      rw [h1, splitWords_append (by decide) w _, ih]
      simp

theorem splitWords_joinSpace_of_clean (ls : List PyStr)
    (h : ∀ w ∈ ls, cleanWord w) : splitWords (joinSpace ls) = ls := by
  rw [splitWords_joinSpace]
  induction ls with
  | nil => rfl
  | cons w ls ih =>
    simp only [List.map_cons, List.flatten_cons]
    rw [splitWords_of_clean w (h w (by simp)),
      ih (fun w' hw' => h w' (by simp [hw']))]
    rfl

/- ## Lemmas about the wrap fold -/

theorem wrapFold_clean_flat (measure : PyStr → Int) (maxWidth : Int) :
    ∀ (ws : List PyStr) (lines cur : List PyStr),
      (∀ w ∈ ws, cleanWord w) → (∀ w ∈ cur, cleanWord w) →
      (∀ w ∈ (ws.foldl (wrapStep measure maxWidth) (lines, cur)).2, cleanWord w) ∧
      ((ws.foldl (wrapStep measure maxWidth) (lines, cur)).1.map splitWords).flatten
          ++ (ws.foldl (wrapStep measure maxWidth) (lines, cur)).2
        = (lines.map splitWords).flatten ++ cur ++ ws := by
  intro ws
  induction ws with
  | nil =>
    intro lines cur _ hcur
    exact ⟨hcur, by simp⟩
  | cons w ws ih =>
    intro lines cur hws hcur
    rw [List.foldl_cons]
    by_cases hfit : measure (joinSpace (cur ++ [w])) ≤ maxWidth
    · have hstep : wrapStep measure maxWidth (lines, cur) w = (lines, cur ++ [w]) := by
        simp [wrapStep, hfit]
      rw [hstep]
      have hcur' : ∀ x ∈ cur ++ [w], cleanWord x := by
        intro x hx
        rcases List.mem_append.mp hx with hmem | hmem
        · exact hcur x hmem
        · rw [List.mem_singleton] at hmem; subst hmem
          exact hws x (List.mem_cons_self _ _)
      have hws' : ∀ y ∈ ws, cleanWord y :=
        fun y hy => hws y (List.mem_cons_of_mem _ hy)
      have hres := ih lines (cur ++ [w]) hws' hcur'
      refine ⟨hres.1, ?_⟩
      rw [hres.2]
      simp
    · have hstep : wrapStep measure maxWidth (lines, cur) w
          = (lines ++ [joinSpace cur], [w]) := by
        simp [wrapStep, hfit]
      rw [hstep]
      have hone : ∀ x ∈ [w], cleanWord x := by
        intro x hx
        rw [List.mem_singleton] at hx; subst hx
        exact hws x (List.mem_cons_self _ _)
      have hws' : ∀ y ∈ ws, cleanWord y :=
        fun y hy => hws y (List.mem_cons_of_mem _ hy)
      have hres := ih (lines ++ [joinSpace cur]) [w] hws' hone
      refine ⟨hres.1, ?_⟩
      rw [hres.2, List.map_append, List.flatten_append]
      simp [splitWords_joinSpace_of_clean cur hcur]

theorem wrapFold_firstComp (measure : PyStr → Int) (maxWidth : Int) :
    ∀ (ws : List PyStr) (lines cur : List PyStr),
      ∃ rest, (ws.foldl (wrapStep measure maxWidth) (lines, cur)).1 = lines ++ rest := by
  intro ws
  induction ws with
  | nil => intro lines cur; exact ⟨[], by simp⟩
  | cons w ws ih =>
    intro lines cur
    rw [List.foldl_cons]
    by_cases hfit : measure (joinSpace (cur ++ [w])) ≤ maxWidth
    · have hstep : wrapStep measure maxWidth (lines, cur) w = (lines, cur ++ [w]) := by
        simp [wrapStep, hfit]
      rw [hstep]
      exact ih lines (cur ++ [w])
    · have hstep : wrapStep measure maxWidth (lines, cur) w
          = (lines ++ [joinSpace cur], [w]) := by
        simp [wrapStep, hfit]
      rw [hstep]
      rcases ih (lines ++ [joinSpace cur]) [w] with ⟨rest, hrest⟩
      exact ⟨joinSpace cur :: rest, by rw [hrest]; simp⟩

theorem filter_length_lt {α : Type} (p : α → Bool) :
    ∀ (l : List α) (a : α), a ∈ l → p a = false →
      (l.filter p).length < l.length := by
  intro l
  induction l with
  | nil => intro a ha _; cases ha
  | cons b t ih =>
    intro a ha hpa
    rcases List.mem_cons.mp ha with hmem | hmem
    · subst hmem
      rw [List.filter_cons, hpa]
      have := List.length_filter_le p t
      simp
      omega
    · have hlt := ih a hmem hpa
      rw [List.filter_cons]
      cases hb : p b <;> simp <;> omega

/- ## Lemmas about the shrink loop -/

theorem shrinkGo_ok (ttf : Nat → PyStr → Int) (text : PyStr) (maxWidth : Int) :
    ∀ (fuel fsize usedSize : Nat) (lines : List PyStr) (iters : Nat),
      (fsize - 19) / 2 ≤ fuel →
      ∃ sz ls it,
        shrinkGo (fun g => .ok (ttf g)) text maxWidth fuel fsize usedSize lines
          iters = .ok (sz, ls, it) ∧
        it ≤ iters + (fsize - 19) / 2 ∧
        (ls.length ≤ 3 ∨ (20 < sz ∧ sz ≤ 22) ∨
          (fsize ≤ 20 ∧ sz = usedSize ∧ ls = lines)) := by
  intro fuel
  induction fuel with
  | zero =>
    intro fsize usedSize lines iters hfuel
    exact ⟨usedSize, lines, iters, rfl, by omega,
      Or.inr (Or.inr ⟨by omega, rfl, rfl⟩)⟩
  | succ fuel ih =>
    intro fsize usedSize lines iters hfuel
    by_cases hf : 20 < fsize
    · by_cases hlen : (wrap_text (ttf fsize) maxWidth text).length ≤ 3
      · refine ⟨fsize, wrap_text (ttf fsize) maxWidth text, iters + 1, ?_,
          by omega, Or.inl hlen⟩
        simp only [shrinkGo]
        rw [if_pos hf]
        simp only [if_pos hlen]
      · rcases ih (fsize - 2) fsize (wrap_text (ttf fsize) maxWidth text)
            (iters + 1) (by omega) with ⟨sz, ls, it, heq, hit, hdis⟩
        refine ⟨sz, ls, it, ?_, by omega, ?_⟩
        · simp only [shrinkGo]
          rw [if_pos hf]
          simp only [if_neg hlen]
          exact heq
        · rcases hdis with h1 | h2 | ⟨h3a, h3b, h3c⟩
          · exact Or.inl h1
          · exact Or.inr (Or.inl h2)
          · exact Or.inr (Or.inl ⟨by omega, by omega⟩)
    · refine ⟨usedSize, lines, iters, ?_, by omega,
        Or.inr (Or.inr ⟨by omega, rfl, rfl⟩)⟩
      simp only [shrinkGo]
      rw [if_neg hf]

/- ## Lemmas about the timeline -/

theorem concatTimeline_length :
    ∀ (ds : List ℚ) (s : ℚ), (concatTimeline s ds).length = ds.length := by
  intro ds
  induction ds with
  | nil => intro s; rfl
  | cons d rest ih => intro s; simp [concatTimeline, ih]

theorem concatTimeline_getD (ds : List ℚ) :
    ∀ (i : Nat) (s : ℚ), i < ds.length →
      (concatTimeline s ds).getD i (0, 0) = (s + (ds.take i).sum, ds.getD i 0) := by
  induction ds with
  | nil => intro i s h; cases h
  | cons d rest ih =>
    intro i s h
    cases i with
    | zero => simp [concatTimeline]
    | succ i =>
      have hrec := ih i (s + d) (by simpa using h)
      simp only [concatTimeline, List.getD_cons_succ, List.take_succ_cons,
        List.sum_cons]
      rw [hrec]
      refine Prod.ext ?_ rfl
      simp
      ring

theorem concatTimeline_map_snd :
    ∀ (ds : List ℚ) (s : ℚ), (concatTimeline s ds).map Prod.snd = ds := by
  intro ds
  induction ds with
  | nil => intro s; rfl
  | cons d rest ih => intro s; simp [concatTimeline, ih]

theorem getD_map_half : ∀ (ds : List ℚ) (i : Nat), i < ds.length →
    (ds.map (fun d => d + 1 / 2)).getD i 0 = ds.getD i 0 + 1 / 2 := by
  intro ds
  induction ds with
  | nil => intro i h; cases h
  | cons d rest ih =>
    intro i h
    cases i with
    | zero => rfl
    | succ i => exact ih i (by simpa using h)

/- ## Claim theorems -/

/-- C1 (counterexample): with a metric that never fits, wrapping "a b c d e"
into a 1920-wide frame from initial size 48 runs 14 wrap iterations and
accepts the wrap computed at font size 22 with 6 lines — so at exit the line
count is not ≤ 3 and the accepted font size is not the floor 20, refuting the
claim's disjunction as stated. -/
theorem shrink_floor_cex :
    create_subtitle_mask_layout (fun g => .ok (tenKTtf g)) 1920 cexText 48
        = .ok (22, [[], ['a'], ['b'], ['c'], ['d'], ['e']], 14) ∧
    ¬ (([([] : PyStr), ['a'], ['b'], ['c'], ['d'], ['e']] : List PyStr).length ≤ 3
        ∨ (22 : Nat) = 20) :=
  ⟨rfl, by decide⟩

/-- C1 (amended): for every width metric family, text and initial font size
≥ 20, the shrink loop terminates in at most `(initial - 20) / 2 + 1` wrap
iterations, and at exit either the accepted wrap has at most 3 lines or the
font size the accepted wrap was computed at lies strictly above the floor, in
{21, 22} — the loop variable falls to ≤ 20, but the accepted wrap was computed
before that final decrement, so its size is never 20. -/
theorem shrink_loop_spec (ttf : Nat → PyStr → Int) (w : Nat) (text : PyStr)
    (fontsize : Nat) (hfs : 20 ≤ fontsize) :
    ∃ sz ls it,
      create_subtitle_mask_layout (fun g => .ok (ttf g)) w text fontsize
        = .ok (sz, ls, it) ∧
      it ≤ (fontsize - 20) / 2 + 1 ∧
      (ls.length ≤ 3 ∨ (20 < sz ∧ sz ≤ 22)) := by
  rcases shrinkGo_ok ttf text ((w : Int) - 100) ((fontsize - 19) / 2) fontsize
      fontsize [] 0 (le_refl _) with ⟨sz, ls, it, heq, hit, hdis⟩
  refine ⟨sz, ls, it, heq, by omega, ?_⟩
  rcases hdis with h1 | h2 | ⟨h3a, h3b, h3c⟩
  · exact Or.inl h1
  · exact Or.inr h2
  · subst h3c
    exact Or.inl (by simp)

/-- C1 (witness): the amended theorem applied at the all-fitting metric,
frame width 1920, text "a b c d e" and initial size 48. -/
theorem shrink_loop_spec_wit :
    20 ≤ 48 ∧ ∃ sz ls it,
      create_subtitle_mask_layout (fun g => .ok (zeroTtf g)) 1920 cexText 48
        = .ok (sz, ls, it) ∧
      it ≤ (48 - 20) / 2 + 1 ∧
      (ls.length ≤ 3 ∨ (20 < sz ∧ sz ≤ 22)) :=
  ⟨by decide, shrink_loop_spec zeroTtf 1920 cexText 48 (by decide)⟩

/-- C2 (counterexample): scaling a 7×2 image to target height 1 yields width
`int(1 * 7/2) = 3`, while the claimed `round(1 * 7/2)` is 4. -/
theorem scale_round_cex :
    scale_image (.ok (7, 2)) 1 = some (3, 1) ∧
    round ((1 * 7 : ℚ) / (2 : ℚ)) = (4 : ℤ) ∧ (3 : Nat) ≠ 4 :=
  ⟨by decide, by norm_num [round_eq], by decide⟩

/-- C2 (amended): for every decodable `w0 × h0` source and positive target
height, `scale_image` returns a raster of height exactly the target and width
`⌊target * w0 / h0⌋` — the floor (Python `int` truncation), not the rounding,
of the exact aspect-preserving width, hence within one pixel of it. -/
theorem scale_image_spec (w0 h0 targetHeight : Nat) (hh : 0 < h0)
    (ht : 0 < targetHeight) :
    ∃ wOut, scale_image (.ok (w0, h0)) targetHeight = some (wOut, targetHeight) ∧
      (wOut : ℚ) ≤ (targetHeight * w0 : ℚ) / (h0 : ℚ) ∧
      (targetHeight * w0 : ℚ) / (h0 : ℚ) < (wOut : ℚ) + 1 := by
  refine ⟨(targetHeight * w0) / h0, ?_, ?_, ?_⟩
  · simp [scale_image, Nat.pos_iff_ne_zero.mp hh]
  · rw [le_div_iff₀ (by positivity)]
    exact_mod_cast Nat.div_mul_le_self (targetHeight * w0) h0
  · rw [div_lt_iff₀ (by positivity)]
    have hnat : targetHeight * w0 < (targetHeight * w0 / h0 + 1) * h0 :=
      (Nat.div_lt_iff_lt_mul hh).mp (Nat.lt_succ_self _)
    exact_mod_cast hnat

/-- C2 (witness): the amended theorem applied to a 7×2 source at target
height 1. -/
theorem scale_image_spec_wit :
    0 < 2 ∧ 0 < 1 ∧
    ∃ wOut, scale_image (.ok (7, 2)) 1 = some (wOut, 1) ∧
      (wOut : ℚ) ≤ (1 * 7 : ℚ) / ((2 : Nat) : ℚ) ∧
      (1 * 7 : ℚ) / ((2 : Nat) : ℚ) < (wOut : ℚ) + 1 :=
  ⟨by decide, by decide, scale_image_spec 7 2 1 (by decide) (by decide)⟩

/-- C3: the claim says a font-load failure falls back to the default font and
still yields a mask.  In the code the fallback on lines 101-104 is defeated:
the shrink loop re-loads the truetype font on line 131 with no try/except, so
with the default initial size 48 (> 20, loop body runs) a failing font load
raises out of `create_subtitle_mask` for every frame width and text, instead
of returning a mask rendered with the default font. -/
theorem font_fallback_defeated (w : Nat) (text : PyStr) :
    create_subtitle_mask_layout (fun _ => .error ()) w text 48 = .error () := rfl

/-- C4: for every width metric and text, the wrapped lines, re-joined with
spaces and re-split on whitespace, reproduce the original word sequence
exactly — no word dropped, duplicated or reordered. -/
theorem wrap_preserves_words (measure : PyStr → Int) (maxWidth : Int)
    (text : PyStr) (h : splitWords text ≠ []) :
    splitWords (joinSpace (wrap_text measure maxWidth text)) = splitWords text := by
  have hwords : ∀ w ∈ splitWords text, cleanWord w := splitWords_clean text
  have hinv := wrapFold_clean_flat measure maxWidth (splitWords text) [] []
    hwords (by simp)
  unfold wrap_text
  by_cases hnil : ((splitWords text).foldl (wrapStep measure maxWidth) ([], [])).2 = []
  · rw [if_pos hnil, splitWords_joinSpace]
    have heq := hinv.2
    rw [hnil, List.append_nil] at heq
    simpa using heq
  · rw [if_neg hnil, splitWords_joinSpace, List.map_append, List.flatten_append]
    have heq := hinv.2
    simp only [List.map_nil, List.flatten_nil, List.nil_append] at heq
    rw [List.map_singleton, List.flatten_cons, List.flatten_nil, List.append_nil,
      splitWords_joinSpace_of_clean _ hinv.1]
    exact heq

/-- C4 (witness): the theorem applied to the text "ab cd" with the
length metric and a 5-pixel budget. -/
theorem wrap_preserves_words_wit :
    splitWords cexText2 ≠ [] ∧
    splitWords (joinSpace (wrap_text lenMeasure 5 cexText2)) = splitWords cexText2 :=
  ⟨by decide, wrap_preserves_words lenMeasure 5 cexText2 (by decide)⟩

/-- C5 (counterexample): at t = π/40 the code's offset
`int(5 * sin(t * 10)) = int(5·√2/2) = int(3.53…) = 3`, while the claimed
`round(5 * sin(t * 10))` is 4 — the code truncates toward zero, it does not
round. -/
theorem shake_round_cex :
    shakeOffset (Real.pi / 40) = 3 ∧
    round (5 * Real.sin (Real.pi / 40 * 10)) = 4 := by
  have hsin : Real.sin (Real.pi / 40 * 10) = Real.sqrt 2 / 2 := by
    rw [show Real.pi / 40 * 10 = Real.pi / 4 by ring, Real.sin_pi_div_four]
  have hlo : (1.414 : ℝ) < Real.sqrt 2 :=
    (Real.lt_sqrt (by norm_num)).mpr (by norm_num)
  have hhi : Real.sqrt 2 < 1.415 :=
    (Real.sqrt_lt' (by norm_num)).mpr (by norm_num)
  have hxlo : (3.5 : ℝ) < 5 * Real.sin (Real.pi / 40 * 10) := by
    rw [hsin]; nlinarith
  have hxhi : 5 * Real.sin (Real.pi / 40 * 10) < 3.6 := by
    rw [hsin]; nlinarith
  constructor
  · show floatToInt (5 * Real.sin (Real.pi / 40 * 10)) = 3
    unfold floatToInt
    rw [if_pos (by linarith)]
    rw [Int.floor_eq_iff]
    constructor
    · push_cast; linarith
    · push_cast; linarith
  · rw [round_eq]
    rw [Int.floor_eq_iff]
    constructor
    · push_cast; linarith
    · push_cast; linarith

/-- C5 (amended): the shake offset is the truncation toward zero (Python
`int()`) of `5 * sin(t * 10)`, and for every sample time it lies in the
interval [-5, 5]. -/
theorem shake_bound (t : ℝ) : -5 ≤ shakeOffset t ∧ shakeOffset t ≤ 5 := by
  have hs1 : -1 ≤ Real.sin (t * 10) := Real.neg_one_le_sin _
  have hs2 : Real.sin (t * 10) ≤ 1 := Real.sin_le_one _
  have h1 : (-5 : ℝ) ≤ 5 * Real.sin (t * 10) := by nlinarith
  have h2 : 5 * Real.sin (t * 10) ≤ 5 := by nlinarith
  unfold shakeOffset floatToInt
  split
  next hpos =>
    refine ⟨Int.le_floor.mpr (by exact_mod_cast h1), ?_⟩
    have hfl : (⌊5 * Real.sin (t * 10)⌋ : ℝ) ≤ 5 :=
      le_trans (Int.floor_le _) h2
    exact_mod_cast hfl
  next hneg =>
    refine ⟨?_, Int.ceil_le.mpr (by exact_mod_cast h2)⟩
    have hce : (-5 : ℝ) ≤ (⌈5 * Real.sin (t * 10)⌉ : ℝ) :=
      le_trans h1 (Int.le_ceil _)
    exact_mod_cast hce

/-- C6: the render function is pure — the call returns the clip state
unchanged (the background is copied before pasting, line 220), so sampling at
the same time after any number of prior calls at arbitrary times yields a
pixel-identical frame. -/
theorem dialog_deterministic (mkSubtitle : Nat → Nat → PyStr → Img)
    (c : DialogClip) (t : ℝ) (ts : List ℝ) :
    (dialogCall mkSubtitle (runCalls mkSubtitle c ts) t).1
      = (dialogCall mkSubtitle c t).1 := by
  have hrun : ∀ (us : List ℝ) (c' : DialogClip), runCalls mkSubtitle c' us = c' := by
    intro us
    induction us with
    | nil => intro c'; rfl
    | cons u rest ih =>
      intro c'
      have hstep : (dialogCall mkSubtitle c' u).2 = c' := rfl
      calc runCalls mkSubtitle c' (u :: rest)
          = runCalls mkSubtitle (dialogCall mkSubtitle c' u).2 rest := rfl
        _ = runCalls mkSubtitle c' rest := by rw [hstep]
        _ = c' := ih c'
  rw [hrun]

/-- C7: when opening or decoding the image raises, `scale_image` returns an
absent result (`None`), and invoking the frame compositor with an absent
sprite in either slot fails with an unhandled error instead of rendering a
frame, because no null-check guards the `self.charN.size` dereference. -/
theorem scale_error_unguarded (targetHeight : Nat)
    (mkSubtitle : Nat → Nat → PyStr → Img) (bg spr : Img) (text : PyStr)
    (speaking : Nat) (d t : ℝ) :
    scale_image (.error ()) targetHeight = none ∧
    dialogCallChecked mkSubtitle bg none (some spr) text speaking d t
      = .error () ∧
    dialogCallChecked mkSubtitle bg (some spr) none text speaking d t
      = .error () :=
  ⟨rfl, rfl, rfl⟩

/-- C8: for synthesized audio durations d0..d{n-1}, clip i lasts di + 0.5,
the clips concatenate gaplessly in script order, clip i (and its audio)
starts at Σ_{j<i} (dj + 0.5), and the total timeline duration is
Σ (di + 0.5). -/
theorem sequencer_timeline (ds : List ℚ) (i : Nat) (h : i < ds.length) :
    (timeline (clipDurations ds)).length = ds.length ∧
    ((timeline (clipDurations ds)).getD i (0, 0)).1
        = ((ds.take i).map (fun d => d + 1 / 2)).sum ∧
    ((timeline (clipDurations ds)).getD i (0, 0)).2 = ds.getD i 0 + 1 / 2 ∧
    ((timeline (clipDurations ds)).map Prod.snd).sum
        = (ds.map (fun d => d + 1 / 2)).sum := by
  have hlen : (clipDurations ds).length = ds.length := List.length_map _ _
  have hi : i < (clipDurations ds).length := by rw [hlen]; exact h
  have hg := concatTimeline_getD (clipDurations ds) i 0 hi
  refine ⟨?_, ?_, ?_, ?_⟩
  · rw [timeline, concatTimeline_length, hlen]
  · rw [timeline, hg]
    simp only [clipDurations]
    rw [zero_add, ← List.map_take]
  · rw [timeline, hg]
    simp only [clipDurations]
    exact getD_map_half ds i h
  · rw [timeline, concatTimeline_map_snd]
    rfl

/-- C8 (witness): the theorem applied to four audio durations 2, 3, 4, 5 at
clip index 2, whose start time is (2 + 0.5) + (3 + 0.5). -/
theorem sequencer_timeline_wit :
    (2 : Nat) < ([2, 3, 4, 5] : List ℚ).length ∧
    ((timeline (clipDurations [2, 3, 4, 5])).getD 2 (0, 0)).1
      = ((([2, 3, 4, 5] : List ℚ).take 2).map (fun d => d + 1 / 2)).sum :=
  ⟨by simp, (sequencer_timeline [2, 3, 4, 5] 2 (by simp)).2.1⟩

/-- C9: the speaking slot is a pure function of the line index modulo 4 —
indices with i % 4 ∈ {0, 1} speak from slot 1 (Host), indices with
i % 4 ∈ {2, 3} from slot 2 (Maya), the pattern repeats with period 4, and the
audio-generation choice (`is_host`, line 280) agrees with the video slot
choice (line 299). -/
theorem speaker_slot_rule (i : Nat) :
    (speaking_char i = 1 ↔ i % 4 = 0 ∨ i % 4 = 1) ∧
    (speaking_char i = 2 ↔ i % 4 = 2 ∨ i % 4 = 3) ∧
    speaking_char (i + 4) = speaking_char i ∧
    (is_host i = true ↔ speaking_char i = 1) := by
  have h4 : i % 4 = 0 ∨ i % 4 = 1 ∨ i % 4 = 2 ∨ i % 4 = 3 := by omega
  have hmod : (i + 4) % 4 = i % 4 := by omega
  rcases h4 with hm | hm | hm | hm <;>
    simp [speaking_char, is_host, hmod, hm]

/-- C10: when the first word alone is wider than the budget, the overflow
branch closes the (still empty) current line, so the first returned line is
the empty string and the returned line count strictly exceeds the number of
lines containing any word. -/
theorem wrap_overflow_empty_first (measure : PyStr → Int) (maxWidth : Int)
    (text : PyStr) (w : PyStr) (ws : List PyStr)
    (h : splitWords text = w :: ws) (hw : maxWidth < measure w) :
    (wrap_text measure maxWidth text).head? = some [] ∧
    ((wrap_text measure maxWidth text).filter (fun l => !l.isEmpty)).length
      < (wrap_text measure maxWidth text).length := by
  have hstep1 : wrapStep measure maxWidth ([], []) w = ([[]], [w]) := by
    simp [wrapStep, joinSpace, not_le.mpr hw]
  have hget : ∃ tail, wrap_text measure maxWidth text = [] :: tail := by
    unfold wrap_text
    rw [h, List.foldl_cons, hstep1]
    rcases wrapFold_firstComp measure maxWidth ws [[]] [w] with ⟨rest, hrest⟩
    by_cases hnil : (ws.foldl (wrapStep measure maxWidth) ([[]], [w])).2 = []
    · rw [if_pos hnil, hrest]
      exact ⟨rest, rfl⟩
    · rw [if_neg hnil, hrest]
      exact ⟨rest ++ [joinSpace (ws.foldl (wrapStep measure maxWidth) ([[]], [w])).2],
        by simp⟩
  rcases hget with ⟨tail, htail⟩
  rw [htail]
  exact ⟨rfl, filter_length_lt _ ([] :: tail) [] (by simp) rfl⟩

/-- C10 (witness): the theorem applied to the text "ab cd" with the length
metric and a 1-pixel budget, where the first word "ab" measures 2. -/
theorem wrap_overflow_empty_first_wit :
    splitWords cexText2 = ['a', 'b'] :: [['c', 'd']] ∧
    (1 : Int) < lenMeasure ['a', 'b'] ∧
    ((wrap_text lenMeasure 1 cexText2).head? = some [] ∧
      ((wrap_text lenMeasure 1 cexText2).filter (fun l => !l.isEmpty)).length
        < (wrap_text lenMeasure 1 cexText2).length) :=
  ⟨by decide, by decide,
    wrap_overflow_empty_first lenMeasure 1 cexText2 ['a', 'b'] [['c', 'd']]
      (by decide) (by decide)⟩

end AutomatePodcast
